import Mathlib

/-!
Verification of the oxc_linter configuration-resolution module
(`crates/oxc_linter/src/config/mod.rs`): parsing of the `extends` and
`rules` sections of an ESLint-style configuration document and the
resolution of the final rule set against the rule catalog.

The JSON document is embedded as a generic tree value; the rule catalog
(external to the module) is an explicit list of rule descriptors.
-/

namespace OxcConfig

/-- A parsed JSON document value (`serde_json::Value`). -/
inductive Value where
  | null : Value
  | bool (b : Bool) : Value
  | num (n : Int) : Value
  | str (s : String) : Value
  | arr (items : List Value) : Value
  | obj (entries : List (String × Value)) : Value

mutual

/-- Decidable equality on document values (structural, so it computes). -/
def Value.decEq : (a b : Value) → Decidable (a = b)
  | .null, .null => .isTrue rfl
  | .bool a, .bool b =>
    if h : a = b then .isTrue (by rw [h]) else .isFalse (fun hh => h (by cases hh; rfl))
  | .num a, .num b =>
    if h : a = b then .isTrue (by rw [h]) else .isFalse (fun hh => h (by cases hh; rfl))
  | .str a, .str b =>
    if h : a = b then .isTrue (by rw [h]) else .isFalse (fun hh => h (by cases hh; rfl))
  | .arr xs, .arr ys =>
    match Value.decEqList xs ys with
    | .isTrue h => .isTrue (by rw [h])
    | .isFalse h => .isFalse (fun hh => h (by cases hh; rfl))
  | .obj xs, .obj ys =>
    match Value.decEqEntries xs ys with
    | .isTrue h => .isTrue (by rw [h])
    | .isFalse h => .isFalse (fun hh => h (by cases hh; rfl))
  | .null, .bool _ => .isFalse (fun h => Value.noConfusion h)
  | .null, .num _ => .isFalse (fun h => Value.noConfusion h)
  | .null, .str _ => .isFalse (fun h => Value.noConfusion h)
  | .null, .arr _ => .isFalse (fun h => Value.noConfusion h)
  | .null, .obj _ => .isFalse (fun h => Value.noConfusion h)
  | .bool _, .null => .isFalse (fun h => Value.noConfusion h)
  | .bool _, .num _ => .isFalse (fun h => Value.noConfusion h)
  | .bool _, .str _ => .isFalse (fun h => Value.noConfusion h)
  | .bool _, .arr _ => .isFalse (fun h => Value.noConfusion h)
  | .bool _, .obj _ => .isFalse (fun h => Value.noConfusion h)
  | .num _, .null => .isFalse (fun h => Value.noConfusion h)
  | .num _, .bool _ => .isFalse (fun h => Value.noConfusion h)
  | .num _, .str _ => .isFalse (fun h => Value.noConfusion h)
  | .num _, .arr _ => .isFalse (fun h => Value.noConfusion h)
  | .num _, .obj _ => .isFalse (fun h => Value.noConfusion h)
  | .str _, .null => .isFalse (fun h => Value.noConfusion h)
  | .str _, .bool _ => .isFalse (fun h => Value.noConfusion h)
  | .str _, .num _ => .isFalse (fun h => Value.noConfusion h)
  | .str _, .arr _ => .isFalse (fun h => Value.noConfusion h)
  | .str _, .obj _ => .isFalse (fun h => Value.noConfusion h)
  | .arr _, .null => .isFalse (fun h => Value.noConfusion h)
  | .arr _, .bool _ => .isFalse (fun h => Value.noConfusion h)
  | .arr _, .num _ => .isFalse (fun h => Value.noConfusion h)
  | .arr _, .str _ => .isFalse (fun h => Value.noConfusion h)
  | .arr _, .obj _ => .isFalse (fun h => Value.noConfusion h)
  | .obj _, .null => .isFalse (fun h => Value.noConfusion h)
  | .obj _, .bool _ => .isFalse (fun h => Value.noConfusion h)
  | .obj _, .num _ => .isFalse (fun h => Value.noConfusion h)
  | .obj _, .str _ => .isFalse (fun h => Value.noConfusion h)
  | .obj _, .arr _ => .isFalse (fun h => Value.noConfusion h)
termination_by structural a => a

/-- Decidable equality on lists of document values. -/
def Value.decEqList : (xs ys : List Value) → Decidable (xs = ys)
  | [], [] => .isTrue rfl
  | [], _ :: _ => .isFalse (fun h => List.noConfusion h)
  | _ :: _, [] => .isFalse (fun h => List.noConfusion h)
  | x :: xs, y :: ys =>
    match Value.decEq x y, Value.decEqList xs ys with
    | .isTrue h1, .isTrue h2 => .isTrue (by rw [h1, h2])
    | .isFalse h1, _ => .isFalse (fun h => h1 (by cases h; rfl))
    | _, .isFalse h2 => .isFalse (fun h => h2 (by cases h; rfl))
termination_by structural xs => xs

/-- Decidable equality on object entry lists. -/
def Value.decEqEntries : (xs ys : List (String × Value)) → Decidable (xs = ys)
  | [], [] => .isTrue rfl
  | [], _ :: _ => .isFalse (fun h => List.noConfusion h)
  | _ :: _, [] => .isFalse (fun h => List.noConfusion h)
  | (k1, v1) :: xs, (k2, v2) :: ys =>
    match Value.decEq v1 v2, Value.decEqEntries xs ys with
    | .isTrue h1, .isTrue h2 =>
      if h0 : k1 = k2 then .isTrue (by rw [h0, h1, h2])
      else .isFalse (fun h => h0 (by cases h; rfl))
    | .isFalse h1, _ => .isFalse (fun h => h1 (by cases h; rfl))
    | _, .isFalse h2 => .isFalse (fun h => h2 (by cases h; rfl))
termination_by structural xs => xs

end

instance : DecidableEq Value := Value.decEq

/-- The error values the module can produce (from `config/errors.rs` and the
severity parser). Each carries the offending value or property for diagnostics. -/
inductive Err where
  | FailedToParseConfigProperty (property msg : String) : Err
  | FailedToParseRuleValue (value : Value) (msg : String) : Err
  | FailedToParseSeverity (value : Value) : Err
deriving DecidableEq

/-- Decidable equality for `Except` results. -/
def exceptDecEq {ε α : Type} [DecidableEq ε] [DecidableEq α] :
    (a b : Except ε α) → Decidable (a = b)
  | .ok a, .ok b =>
    if h : a = b then .isTrue (by rw [h]) else .isFalse (fun hh => h (by cases hh; rfl))
  | .error a, .error b =>
    if h : a = b then .isTrue (by rw [h]) else .isFalse (fun hh => h (by cases hh; rfl))
  | .ok _, .error _ => .isFalse (fun h => Except.noConfusion h)
  | .error _, .ok _ => .isFalse (fun h => Except.noConfusion h)

instance {ε α : Type} [DecidableEq ε] [DecidableEq α] : DecidableEq (Except ε α) :=
  exceptDecEq

/-- Modelled from the spec: the `AllowWarnDeny` severity enum lives in the crate
root, outside the config module; it is a three-valued enabled/disabled signal
with states Off/Allow, Warn and Error/Deny. -/
inductive AllowWarnDeny where
  | Allow : AllowWarnDeny
  | Warn : AllowWarnDeny
  | Deny : AllowWarnDeny
deriving DecidableEq

/-- Modelled from the spec: `is_enabled()` is true for Warn/Error, false for Off. -/
def AllowWarnDeny.is_enabled : AllowWarnDeny → Bool
  | .Allow => false
  | .Warn => true
  | .Deny => true

/-- Modelled from the spec: `AllowWarnDeny::try_from(&str)` (crate root, outside
the config module) parses a severity token from the fixed vocabulary
off / warn / error; anything else is a severity parse failure carrying the raw
value. -/
def AllowWarnDeny.try_from_str (s : String) : Except Err AllowWarnDeny :=
  if s = "off" then .ok .Allow
  else if s = "warn" then .ok .Warn
  else if s = "error" then .ok .Deny
  else .error (.FailedToParseSeverity (.str s))

/-- Modelled from the spec: `AllowWarnDeny::try_from(&Value)` (crate root,
outside the config module) accepts a string token and parses it with the
severity vocabulary; any non-string value is a severity parse failure. -/
def AllowWarnDeny.try_from_value : Value → Except Err AllowWarnDeny
  | .str s => AllowWarnDeny.try_from_str s
  | v => .error (.FailedToParseSeverity v)

/-- Embeds `Value::as_str`. -/
def Value.as_str : Value → Option String
  | .str s => some s
  | _ => none

/-- Embeds `Value::as_array`. -/
def Value.as_array : Value → Option (List Value)
  | .arr items => some items
  | _ => none

/-- Embeds `Value::get` with a string index: `some` only on objects that contain the
key (object keys are unique in a parsed document, so the first match is the
entry). -/
def Value.getKey : Value → String → Option Value
  | .obj entries, key => (entries.find? (fun e => e.1 == key)).map (fun e => e.2)
  | _, _ => none

/-- Embeds `str::split_once` on a list of characters: split at the first occurrence
of the separator. -/
def split_once_chars (sep : Char) : List Char → Option (List Char × List Char)
  | [] => none
  | c :: rest =>
    if c = sep then some ([], rest)
    else (split_once_chars sep rest).map (fun p => (c :: p.1, p.2))

/-- Embeds `str::split_once`. -/
def split_once (s : String) (sep : Char) : Option (String × String) :=
  (split_once_chars sep s.toList).map (fun p => (String.mk p.1, String.mk p.2))

/-- Embeds `str::trim_start_matches` for a character pattern: drop every leading
occurrence. -/
def trim_start_matches (s : String) (c : Char) : String :=
  String.mk (s.toList.dropWhile (fun x => x = c))

/-- Embeds `parse_rule_name` (src lines 163-177): split the raw key on the first `/`;
without a `/` the category is the default `eslint`; otherwise trim leading `@`
from the category and fold the `typescript-eslint` alias into `typescript`. -/
def parse_rule_name (name : String) : String × String :=
  match split_once name '/' with
  | some (category, rest) =>
    let category := trim_start_matches category '@'
    let category := if category = "typescript-eslint" then "typescript" else category
    (category, rest)
  | none => ("eslint", name)

/-- The static `EXTENDS_MAP` preset table (src lines 154-161). -/
def EXTENDS_MAP (s : String) : Option String :=
  if s = "eslint:recommended" then some "eslint"
  else if s = "plugin:react/recommended" then some "react"
  else if s = "plugin:@typescript-eslint/recommended" then some "typescript"
  else if s = "plugin:react-hooks/recommended" then some "react"
  else if s = "plugin:unicorn/recommended" then some "unicorn"
  else if s = "plugin:jest/recommended" then some "jest"
  else none

/-- Embeds `parse_extends` (src lines 103-132): absent key yields `none`; a non-array
value is a property-shape error; an array is filtered through `EXTENDS_MAP`,
skipping non-string elements and unmapped preset names. -/
def parse_extends (root_json : Value) : Except Err (Option (List String)) :=
  match root_json.getKey "extends" with
  | none => .ok none
  | some extends_value =>
    match extends_value with
    | .arr items =>
      .ok (some (items.filterMap (fun v =>
        match v with
        | .str s => EXTENDS_MAP s
        | _ => none)))
    | _ => .error (.FailedToParseConfigProperty "extends" "Expected an array.")

/-- Embeds `resolve_rule_value` (src lines 188-200): a string parses as a severity
with no config; a non-empty array parses element 0 as a severity with element
1 (if present) as config; everything else, the empty array included, is an
invalid-rule-value error carrying the raw value. -/
def resolve_rule_value (value : Value) : Except Err (AllowWarnDeny × Option Value) :=
  match value.as_str with
  | some v =>
    match AllowWarnDeny.try_from_str v with
    | .ok sev => .ok (sev, none)
    | .error e => .error e
  | none =>
    match value.as_array with
    | some items =>
      match items.get? 0 with
      | some v_idx_0 =>
        match AllowWarnDeny.try_from_value v_idx_0 with
        | .ok sev => .ok (sev, items.get? 1)
        | .error e => .error e
      | none => .error (.FailedToParseRuleValue value "Invalid rule value")
    | none => .error (.FailedToParseRuleValue value "Invalid rule value")

/-- One entry of the `rules` object: parse the key with `parse_rule_name` and
the value with `resolve_rule_value` (the closure in src lines 144-150). -/
def parse_rules_entry (entry : String × Value) :
    Except Err (String × String × AllowWarnDeny × Option Value) :=
  let parsed_key := parse_rule_name entry.1
  match resolve_rule_value entry.2 with
  | .ok (rule_severity, rule_config) =>
    .ok (parsed_key.1, parsed_key.2, rule_severity, rule_config)
  | .error e => .error e

/-- Embeds `parse_rules` (src lines 135-152): a document that is not an object, has no
`rules` key, or whose `rules` value is not an object yields the empty list; an
object is parsed entry by entry, collecting into a `Result` so the first
failing entry aborts the whole parse. -/
def parse_rules (root_json : Value) :
    Except Err (List (String × String × AllowWarnDeny × Option Value)) :=
  match root_json.getKey "rules" with
  | some (.obj rules_object) => rules_object.mapM parse_rules_entry
  | _ => .ok []

/-- Modelled from the spec: a rule descriptor of the external catalog
(`RuleEnum`), exposing its plugin category, its name, and via `read_json` the
optional rule-specific config it was configured with. -/
structure RuleEnum where
  plugin_name : String
  name : String
  config : Option Value
deriving DecidableEq

/-- Modelled from the spec: `RuleEnum::read_json` turns an optional config
value into a configured rule instance. -/
def RuleEnum.read_json (rule : RuleEnum) (config : Option Value) : RuleEnum :=
  { rule with config := config }

/-- Lookup in the `HashMap` built by `collect` over the parsed rules list,
keyed by (plugin name, rule name): the last entry for a key wins. -/
def roles_lookup (roles : List (String × String × AllowWarnDeny × Option Value))
    (key : String × String) : Option (AllowWarnDeny × Option Value) :=
  (roles.reverse.find? (fun r => r.1 == key.1 && r.2.1 == key.2)).map (fun r => r.2.2)

/-- The body of the `filter_map` in `ESLintConfig::new` (src lines 71-92): a
rule is kept when it is in the extends set and not explicitly handled, or when
its explicit policy is enabled; a kept rule is configured with the explicit
entry's config. -/
def rule_decision (extends_hm : List String)
    (roles_hm : List (String × String × AllowWarnDeny × Option Value))
    (rule : RuleEnum) : Option RuleEnum :=
  let in_extends := extends_hm.contains rule.plugin_name
  let handled :=
    match roles_lookup roles_hm (rule.plugin_name, rule.name) with
    | some (policy, config) => (true, policy, config)
    | none => (false, AllowWarnDeny.Allow, (none : Option Value))
  if (in_extends && !handled.1) || handled.2.1.is_enabled then
    some (rule.read_json handled.2.2)
  else
    none

/-- The resolution engine: filter the catalog with `rule_decision` (the
`filter_map` over `RULES` in src lines 71-92). -/
def resolve (RULES : List RuleEnum) (extends_hm : List String)
    (roles_hm : List (String × String × AllowWarnDeny × Option Value)) : List RuleEnum :=
  RULES.filterMap (rule_decision extends_hm roles_hm)

/-- The severity associated with a rule identifier: the explicit entry's
severity when present, the Off/Allow default otherwise (src lines 76-83). -/
def explicit_severity (roles_hm : List (String × String × AllowWarnDeny × Option Value))
    (key : String × String) : AllowWarnDeny :=
  match roles_lookup roles_hm key with
  | some (policy, _) => policy
  | none => .Allow

/-- The identifier of a catalog rule: its (plugin category, rule name) pair. -/
def rule_id (r : RuleEnum) : String × String := (r.plugin_name, r.name)

/-- The identifier of a parsed `rules` entry. -/
def roles_id (r : String × String × AllowWarnDeny × Option Value) : String × String :=
  (r.1, r.2.1)

/-- The value a successful `parse_rules_entry` produces (a placeholder on the
error branch, used only to state results of successful parses). -/
def parsed_entry (p : String × Value) : String × String × AllowWarnDeny × Option Value :=
  match parse_rules_entry p with
  | .ok r => r
  | .error _ => ("", "", .Allow, none)

/-- The resolved configuration: the list of configured rule instances. -/
structure ESLintConfig where
  rules : List RuleEnum
deriving DecidableEq

namespace ESLintConfig

/-- Embeds `ESLintConfig::new` (src lines 45-95) after the file read and JSON parse:
resolve the extends set and the override map, then filter the catalog with
`rule_decision`. The catalog `RULES` is passed explicitly. -/
def new (RULES : List RuleEnum) (file : Value) : Except Err ESLintConfig :=
  match parse_extends file with
  | .error e => .error e
  | .ok extends_opt =>
    let extends_hm := match extends_opt with
      | some categories => categories
      | none => []
    match parse_rules file with
    | .error e => .error e
    | .ok roles_hm =>
      .ok ⟨resolve RULES extends_hm roles_hm⟩

end ESLintConfig

/-- Lexicographic comparison of character lists: the total order in which
`str::cmp` compares rule names (bytewise for UTF-8 agrees with the
codepoint-lexicographic order). -/
def chars_le : List Char → List Char → Bool
  | [], _ => true
  | _ :: _, [] => false
  | a :: as, b :: bs =>
    if a = b then chars_le as bs
    else decide (a < b)

/-- The sort order of `into_rules`: by the rule name key
(`sort_unstable_by_key(RuleEnum::name)`). -/
def ESLintConfig.rule_le (a b : RuleEnum) : Prop :=
  chars_le a.name.toList b.name.toList = true

instance : DecidableRel ESLintConfig.rule_le :=
  fun a b => inferInstanceAs (Decidable (chars_le a.name.toList b.name.toList = true))

/-- Embeds `ESLintConfig::into_rules` (src lines 97-100): sort the resolved rules by
name (the source's unstable comparison sort is modelled by insertion sort; the
source contract is any comparison sort on the name key). -/
def ESLintConfig.into_rules (self : ESLintConfig) : List RuleEnum :=
  self.rules.insertionSort ESLintConfig.rule_le

/-- The strict version of the sort order: strictly smaller rule name. -/
def ESLintConfig.rule_lt (a b : RuleEnum) : Prop :=
  ESLintConfig.rule_le a b ∧ a.name ≠ b.name

/-- The whole resolution pipeline on an already-parsed document: `new` followed
by `into_rules`. -/
def eslint_rules (RULES : List RuleEnum) (file : Value) : Except Err (List RuleEnum) :=
  (ESLintConfig.new RULES file).map ESLintConfig.into_rules

/-- The config value associated with a rule identifier: the explicit entry's
config when present, `none` otherwise (src lines 76-83). -/
def explicit_config (roles_hm : List (String × String × AllowWarnDeny × Option Value))
    (key : String × String) : Option Value :=
  match roles_lookup roles_hm key with
  | some (_, config) => config
  | none => none

/-! ### The character-list order is total, transitive and antisymmetric -/

theorem chars_le_total : ∀ as bs : List Char, chars_le as bs = true ∨ chars_le bs as = true
  | [], _ => Or.inl rfl
  | _ :: _, [] => Or.inr rfl
  | a :: as, b :: bs => by
    by_cases hab : a = b
    · subst hab
      rcases chars_le_total as bs with h | h
      · exact Or.inl (by simpa [chars_le] using h)
      · exact Or.inr (by simpa [chars_le] using h)
    · rcases lt_or_gt_of_ne hab with hlt | hgt
      · exact Or.inl (by simp [chars_le, hab, hlt])
      · exact Or.inr (by simp [chars_le, Ne.symm hab, hgt])

theorem chars_le_trans : ∀ as bs cs : List Char,
    chars_le as bs = true → chars_le bs cs = true → chars_le as cs = true
  | [], _, _, _, _ => rfl
  | _ :: _, [], _, h1, _ => by simp [chars_le] at h1
  | _ :: _, _ :: _, [], _, h2 => by simp [chars_le] at h2
  | a :: as, b :: bs, c :: cs, h1, h2 => by
    by_cases hab : a = b
    · subst hab
      by_cases hac : a = c
      · subst hac
        simp only [chars_le, if_pos rfl] at h1 h2 ⊢
        exact chars_le_trans as bs cs h1 h2
      · simp only [chars_le, if_pos rfl] at h1
        simp only [chars_le, if_neg hac] at h2 ⊢
        exact h2
    · have halt : a < b := by
        have h1' := h1
        simp only [chars_le, if_neg hab] at h1'
        exact of_decide_eq_true h1'
      by_cases hbc : b = c
      · subst hbc
        simp only [chars_le, if_neg hab] at h1 ⊢
        exact h1
      · have hblt : b < c := by
          have h2' := h2
          simp only [chars_le, if_neg hbc] at h2'
          exact of_decide_eq_true h2'
        have hac : a < c := lt_trans halt hblt
        simp only [chars_le, if_neg (ne_of_lt hac)]
        exact decide_eq_true hac

theorem chars_le_antisymm : ∀ as bs : List Char,
    chars_le as bs = true → chars_le bs as = true → as = bs
  | [], [], _, _ => rfl
  | [], _ :: _, _, h2 => by simp [chars_le] at h2
  | _ :: _, [], h1, _ => by simp [chars_le] at h1
  | a :: as, b :: bs, h1, h2 => by
    by_cases hab : a = b
    · subst hab
      simp only [chars_le, if_pos rfl] at h1 h2
      rw [chars_le_antisymm as bs h1 h2]
    · exfalso
      simp only [chars_le, if_neg hab] at h1
      simp only [chars_le, if_neg (Ne.symm hab)] at h2
      exact absurd (of_decide_eq_true h2) (lt_asymm (of_decide_eq_true h1))

instance : IsTotal RuleEnum ESLintConfig.rule_le :=
  ⟨fun a b => chars_le_total a.name.toList b.name.toList⟩

instance : IsTrans RuleEnum ESLintConfig.rule_le :=
  ⟨fun _ _ _ h1 h2 => chars_le_trans _ _ _ h1 h2⟩

theorem rule_le_antisymm_names {a b : RuleEnum} (h1 : ESLintConfig.rule_le a b)
    (h2 : ESLintConfig.rule_le b a) : a.name = b.name :=
  String.toList_inj.mp (chars_le_antisymm _ _ h1 h2)

instance : IsAntisymm RuleEnum ESLintConfig.rule_lt :=
  ⟨fun _ _ h1 h2 => (h1.2 (rule_le_antisymm_names h1.1 h2.1)).elim⟩

/-! ### `split_once` on character lists -/

theorem split_once_chars_eq_none {sep : Char} : ∀ (l : List Char), sep ∉ l →
    split_once_chars sep l = none
  | [], _ => rfl
  | c :: rest, h => by
    have hc : ¬ c = sep := by
      intro hh; subst hh; exact h (List.mem_cons_self _ _)
    have hrest : sep ∉ rest := fun hh => h (List.mem_cons_of_mem _ hh)
    rw [split_once_chars, if_neg hc, split_once_chars_eq_none rest hrest]
    rfl

theorem split_once_chars_isSome {sep : Char} : ∀ (l : List Char), sep ∈ l →
    ∃ p, split_once_chars sep l = some p
  | [], h => absurd h (List.not_mem_nil _)
  | c :: rest, h => by
    by_cases hc : c = sep
    · exact ⟨([], rest), by rw [split_once_chars, if_pos hc]⟩
    · have hmem : sep ∈ rest := by
        rcases List.mem_cons.mp h with h1 | h1
        · exact absurd h1.symm hc
        · exact h1
      obtain ⟨p, hp⟩ := split_once_chars_isSome rest hmem
      exact ⟨(c :: p.1, p.2), by rw [split_once_chars, if_neg hc, hp]; rfl⟩

theorem split_once_chars_append {sep : Char} : ∀ (pre rest : List Char), sep ∉ pre →
    split_once_chars sep (pre ++ sep :: rest) = some (pre, rest)
  | [], rest, _ => by rw [List.nil_append, split_once_chars, if_pos rfl]
  | c :: pre, rest, h => by
    have hc : ¬ c = sep := by
      intro hh; subst hh; exact h (List.mem_cons_self _ _)
    have hpre : sep ∉ pre := fun hh => h (List.mem_cons_of_mem _ hh)
    rw [List.cons_append, split_once_chars, if_neg hc, split_once_chars_append pre rest hpre]
    rfl

/-! ### Claim theorems -/

/-- C6: for every raw rule key containing no `/` character, `parse_rule_name`
returns the default category `eslint` and the input string unchanged as the
rule name. -/
theorem c6_no_slash_default_category (key : String) (h : '/' ∉ key.toList) :
    parse_rule_name key = ("eslint", key) := by
  unfold parse_rule_name split_once
  rw [split_once_chars_eq_none key.toList h]
  rfl

/-- Witness for C6 at the key `no-console`. -/
theorem c6_no_slash_default_category_witness :
    '/' ∉ "no-console".toList ∧ parse_rule_name "no-console" = ("eslint", "no-console") :=
  ⟨by decide, c6_no_slash_default_category "no-console" (by decide)⟩

/-- C8: `parse_extends` on a document with no `extends` key returns `none`, and
on a document whose `extends` value is present but not an array it fails with
the "Expected an array." error naming the `extends` property. -/
theorem c8_extends_shape (doc : Value) :
    (doc.getKey "extends" = none → parse_extends doc = .ok none)
    ∧ (∀ v, doc.getKey "extends" = some v → v.as_array = none →
      parse_extends doc = .error (.FailedToParseConfigProperty "extends" "Expected an array.")) := by
  constructor
  · intro h
    unfold parse_extends
    rw [h]
  · intro v hv hna
    unfold parse_extends
    rw [hv]
    cases v <;> simp_all [Value.as_array]

/-- Witness for C8: a document without `extends`, and one with a string
`extends`. -/
theorem c8_extends_shape_witness :
    parse_extends (Value.obj []) = .ok none
    ∧ parse_extends (Value.obj [("extends", .str "x")])
      = .error (.FailedToParseConfigProperty "extends" "Expected an array.") :=
  ⟨(c8_extends_shape (Value.obj [])).1 (by decide),
   (c8_extends_shape (Value.obj [("extends", .str "x")])).2 (.str "x") (by decide) (by decide)⟩

/-- C4: `resolve_rule_value` returns `(severity, none)` on a severity string,
`(severity from element 0, element 1 if present)` on a non-empty array whose
head parses — in particular `["error"]` yields `(Error, none)` — and fails
with the invalid-rule-value error carrying the raw value on non-string
non-array values and on the empty array. -/
theorem c4_rule_value_cases :
    (∀ (s : String) (sev : AllowWarnDeny), AllowWarnDeny.try_from_str s = .ok sev →
      resolve_rule_value (.str s) = .ok (sev, none))
    ∧ (∀ (v0 : Value) (rest : List Value) (sev : AllowWarnDeny),
      AllowWarnDeny.try_from_value v0 = .ok sev →
      resolve_rule_value (.arr (v0 :: rest)) = .ok (sev, (v0 :: rest).get? 1))
    ∧ resolve_rule_value (.arr [.str "error"]) = .ok (.Deny, none)
    ∧ (∀ value : Value, value.as_str = none → value.as_array = none →
      resolve_rule_value value = .error (.FailedToParseRuleValue value "Invalid rule value"))
    ∧ resolve_rule_value (.arr [])
      = .error (.FailedToParseRuleValue (.arr []) "Invalid rule value") := by
  refine ⟨?_, ?_, by decide, ?_, by decide⟩
  · intro s sev h
    simp only [resolve_rule_value, Value.as_str]
    rw [h]
  · intro v0 rest sev h
    simp only [resolve_rule_value, Value.as_str, Value.as_array, List.get?]
    rw [h]
  · intro value h1 h2
    simp only [resolve_rule_value]
    rw [h1, h2]

/-- Witness for C4: a severity string, a two-element array, and a number. -/
theorem c4_rule_value_cases_witness :
    resolve_rule_value (.str "warn") = .ok (.Warn, none)
    ∧ resolve_rule_value (.arr [.str "off", .num 5])
      = .ok (.Allow, ([Value.str "off", Value.num 5]).get? 1)
    ∧ resolve_rule_value (.num 2)
      = .error (.FailedToParseRuleValue (.num 2) "Invalid rule value") :=
  ⟨c4_rule_value_cases.1 "warn" .Warn (by decide),
   c4_rule_value_cases.2.1 (.str "off") [.num 5] .Allow (by decide),
   c4_rule_value_cases.2.2.2.1 (.num 2) (by decide) (by decide)⟩

/-- C10: an array of length three or more with a valid severity head resolves
to exactly (that severity, element 1): elements from index 2 on are ignored,
and the result equals that of the two-element array. -/
theorem c10_extra_elements_ignored (v0 v1 v2 : Value) (rest : List Value)
    (sev : AllowWarnDeny) (h : AllowWarnDeny.try_from_value v0 = .ok sev) :
    resolve_rule_value (.arr (v0 :: v1 :: v2 :: rest)) = .ok (sev, some v1)
    ∧ resolve_rule_value (.arr (v0 :: v1 :: v2 :: rest))
      = resolve_rule_value (.arr [v0, v1]) := by
  have h1 : resolve_rule_value (.arr (v0 :: v1 :: v2 :: rest)) = .ok (sev, some v1) := by
    simp only [resolve_rule_value, Value.as_str, Value.as_array, List.get?]
    rw [h]
  have h2 : resolve_rule_value (.arr [v0, v1]) = .ok (sev, some v1) := by
    simp only [resolve_rule_value, Value.as_str, Value.as_array, List.get?]
    rw [h]
  exact ⟨h1, h1.trans h2.symm⟩

/-- Witness for C10 at `["error", 1, 2, 3]`. -/
theorem c10_extra_elements_ignored_witness :
    resolve_rule_value (.arr [.str "error", .num 1, .num 2, .num 3])
      = .ok (.Deny, some (.num 1))
    ∧ resolve_rule_value (.arr [.str "error", .num 1, .num 2, .num 3])
      = resolve_rule_value (.arr [.str "error", .num 1]) :=
  c10_extra_elements_ignored (.str "error") (.num 1) (.num 2) [.num 3] .Deny (by decide)

/-- C7: a leading `@` on a scoped rule key is stripped from the category part
before alias resolution — parsing `@rest` equals parsing `rest` whenever `rest`
contains a `/` — and the scoped `@typescript-eslint/<name>` key resolves to
the `typescript` category for every rule name. -/
theorem c7_scope_and_typescript_alias :
    (∀ rest : String, '/' ∈ rest.toList →
      parse_rule_name ("@" ++ rest) = parse_rule_name rest)
    ∧ (∀ name : String,
      parse_rule_name ("@typescript-eslint/" ++ name) = ("typescript", name)) := by
  constructor
  · intro rest h
    obtain ⟨p, hp⟩ := split_once_chars_isSome rest.toList h
    have h1 : ("@" ++ rest).toList = '@' :: rest.toList := by
      show ("@" ++ rest).data = '@' :: rest.data
      rw [String.data_append]
      rfl
    have h2 : split_once_chars '/' ('@' :: rest.toList)
        = some ('@' :: p.1, p.2) := by
      rw [split_once_chars, if_neg (by decide), hp]
      rfl
    unfold parse_rule_name split_once
    rw [h1, h2, hp]
    simp only [Option.map_some']
    have h3 : trim_start_matches (String.mk ('@' :: p.1)) '@'
        = trim_start_matches (String.mk p.1) '@' := by
      unfold trim_start_matches
      show String.mk (List.dropWhile _ ('@' :: p.1)) = _
      rw [List.dropWhile_cons]
      simp
    simp only [h3]
  · intro name
    have h1 : ("@typescript-eslint/" ++ name).toList
        = "@typescript-eslint".toList ++ '/' :: name.toList := by
      show ("@typescript-eslint/" ++ name).data = "@typescript-eslint".data ++ '/' :: name.data
      rw [String.data_append,
        show "@typescript-eslint/".data = "@typescript-eslint".data ++ ['/'] by decide,
        List.append_assoc]
      rfl
    have h2 : split_once_chars '/' ("@typescript-eslint".toList ++ '/' :: name.toList)
        = some ("@typescript-eslint".toList, name.toList) :=
      split_once_chars_append _ _ (by decide)
    unfold parse_rule_name split_once
    rw [h1, h2]
    simp only [Option.map_some']
    have h3 : trim_start_matches (String.mk "@typescript-eslint".toList) '@'
        = "typescript-eslint" := by decide
    simp only [h3]
    rfl

/-- Witness for C7 at `@react/jsx-key` and `@typescript-eslint/no-explicit-any`. -/
theorem c7_scope_and_typescript_alias_witness :
    ('/' ∈ "react/jsx-key".toList
      ∧ parse_rule_name ("@" ++ "react/jsx-key") = parse_rule_name "react/jsx-key")
    ∧ parse_rule_name ("@typescript-eslint/" ++ "no-explicit-any")
      = ("typescript", "no-explicit-any") :=
  ⟨⟨by decide, c7_scope_and_typescript_alias.1 "react/jsx-key" (by decide)⟩,
   c7_scope_and_typescript_alias.2 "no-explicit-any"⟩

/-- C9: when `extends` is an array, non-string elements are skipped and
unmapped preset strings are dropped, the rest being mapped through
`EXTENDS_MAP`; and the resolution outcome depends on the extends categories
only through set membership, so duplicates are irrelevant (the de-duplication
into a `HashSet` before use). -/
theorem c9_extends_array_semantics :
    (∀ (doc : Value) (items : List Value), doc.getKey "extends" = some (.arr items) →
      parse_extends doc = .ok (some ((items.filterMap Value.as_str).filterMap EXTENDS_MAP)))
    ∧ (∀ (RULES : List RuleEnum) (e1 e2 : List String)
        (roles : List (String × String × AllowWarnDeny × Option Value)),
      (∀ s, e1.contains s = e2.contains s) →
      resolve RULES e1 roles = resolve RULES e2 roles) := by
  constructor
  · intro doc items h
    unfold parse_extends
    rw [h]
    have hfun : ∀ v : Value,
        (match v with | Value.str s => EXTENDS_MAP s | _ => none)
          = (Value.as_str v).bind EXTENDS_MAP := by
      intro v; cases v <;> rfl
    simp only [List.filterMap_filterMap, hfun, Option.bind_eq_bind]
  · intro RULES e1 e2 roles h
    unfold resolve
    have hd : ∀ r : RuleEnum, rule_decision e1 roles r = rule_decision e2 roles r := by
      intro r
      unfold rule_decision
      rw [h r.plugin_name]
    rw [show rule_decision e1 roles = rule_decision e2 roles from funext hd]

/-- Witness for C9: a mixed `extends` array, and a duplicated extends list. -/
theorem c9_extends_array_semantics_witness :
    parse_extends (Value.obj [("extends", .arr [.str "eslint:recommended", .num 3, .str "zzz"])])
      = .ok (some ((([Value.str "eslint:recommended", .num 3, .str "zzz"]).filterMap
          Value.as_str).filterMap EXTENDS_MAP))
    ∧ resolve [⟨"eslint", "x", none⟩] ["eslint", "eslint"] []
      = resolve [⟨"eslint", "x", none⟩] ["eslint"] [] :=
  ⟨c9_extends_array_semantics.1 _ _ (by decide),
   c9_extends_array_semantics.2 _ _ _ _ (fun s => by simp [List.contains_cons])⟩

/-- In an `Except` traversal, the first failing element aborts the whole
computation with its error, provided everything before it succeeds. -/
theorem mapM_first_error {α β : Type} (f : α → Except Err β) :
    ∀ (pre : List α) (x : α) (post : List α) (e : Err),
    (∀ p ∈ pre, ∃ r, f p = .ok r) → f x = .error e →
    (pre ++ x :: post).mapM f = .error e
  | [], x, post, e, _, hfail => by
    rw [List.nil_append, List.mapM_cons, hfail]
    rfl
  | p :: pre, x, post, e, hok, hfail => by
    obtain ⟨r, hr⟩ := hok p (List.mem_cons_self _ _)
    have ih := mapM_first_error f pre x post e
      (fun q hq => hok q (List.mem_cons_of_mem _ hq)) hfail
    rw [List.cons_append, List.mapM_cons, hr]
    show ((pre ++ x :: post).mapM f).bind _ = _
    rw [ih]
    rfl

/-- C5: `parse_rules` yields the empty list (not an error) when the document
has no `rules` object, and otherwise the first failing entry's error aborts
the whole parse with no partial result. -/
theorem c5_parse_rules_behavior :
    (∀ doc : Value, (∀ entries, doc.getKey "rules" ≠ some (.obj entries)) →
      parse_rules doc = .ok [])
    ∧ (∀ (doc : Value) (pre post : List (String × Value)) (k : String) (v : Value) (e : Err),
      doc.getKey "rules" = some (.obj (pre ++ (k, v) :: post)) →
      (∀ p ∈ pre, ∃ r, parse_rules_entry p = .ok r) →
      parse_rules_entry (k, v) = .error e →
      parse_rules doc = .error e) := by
  constructor
  · intro doc h
    unfold parse_rules
    cases hg : doc.getKey "rules" with
    | none => rfl
    | some v =>
      cases v with
      | obj entries => exact absurd hg (h entries)
      | null => rfl
      | bool _ => rfl
      | num _ => rfl
      | str _ => rfl
      | arr _ => rfl
  · intro doc pre post k v e hg hok hfail
    unfold parse_rules
    rw [hg]
    exact mapM_first_error parse_rules_entry pre (k, v) post e hok hfail

/-- Witness for C5: a non-object document, and a `rules` object whose second
entry is invalid. -/
theorem c5_parse_rules_behavior_witness :
    parse_rules (Value.str "nope") = .ok []
    ∧ parse_rules (Value.obj [("rules", Value.obj [("a", .str "warn"), ("b", .num 7)])])
      = .error (.FailedToParseRuleValue (.num 7) "Invalid rule value") :=
  ⟨(c5_parse_rules_behavior.1 (Value.str "nope") (fun _ h => Option.noConfusion h)),
   (c5_parse_rules_behavior.2 (Value.obj [("rules", Value.obj [("a", .str "warn"), ("b", .num 7)])])
      [("a", .str "warn")] [] "b" (.num 7) _ (by decide)
      (fun p hp => by
        rw [List.mem_singleton] at hp
        subst hp
        exact ⟨("eslint", "a", .Warn, none), by decide⟩)
      (by decide))⟩

/-! ### The per-rule decision -/

theorem rule_decision_eq (e : List String)
    (roles : List (String × String × AllowWarnDeny × Option Value)) (r : RuleEnum) :
    rule_decision e roles r =
      if (e.contains r.plugin_name
            && !(roles_lookup roles (r.plugin_name, r.name)).isSome)
          || (explicit_severity roles (r.plugin_name, r.name)).is_enabled
      then some (r.read_json (explicit_config roles (r.plugin_name, r.name)))
      else none := by
  unfold rule_decision explicit_severity explicit_config
  cases roles_lookup roles (r.plugin_name, r.name) with
  | none => rfl
  | some pc =>
    obtain ⟨policy, config⟩ := pc
    rfl

theorem rule_decision_some_id {e : List String}
    {roles : List (String × String × AllowWarnDeny × Option Value)}
    {r x : RuleEnum} (h : rule_decision e roles r = some x) :
    x.plugin_name = r.plugin_name ∧ x.name = r.name := by
  rw [rule_decision_eq] at h
  by_cases hc : ((e.contains r.plugin_name
        && !(roles_lookup roles (r.plugin_name, r.name)).isSome)
      || (explicit_severity roles (r.plugin_name, r.name)).is_enabled) = true
  · rw [if_pos hc] at h
    cases h
    exact ⟨rfl, rfl⟩
  · rw [if_neg hc] at h
    cases h

theorem rule_decision_isSome_iff (e : List String)
    (roles : List (String × String × AllowWarnDeny × Option Value)) (r : RuleEnum) :
    (rule_decision e roles r).isSome = true ↔
      ((r.plugin_name ∈ e ∧ roles_lookup roles (r.plugin_name, r.name) = none)
        ∨ explicit_severity roles (r.plugin_name, r.name) = .Warn
        ∨ explicit_severity roles (r.plugin_name, r.name) = .Deny) := by
  rw [rule_decision_eq]
  cases hl : roles_lookup roles (r.plugin_name, r.name) with
  | none =>
    by_cases hmem : r.plugin_name ∈ e
    · have hc : e.contains r.plugin_name = true := by
        simpa [List.contains, List.elem_iff] using hmem
      simp [explicit_severity, hl, hc, AllowWarnDeny.is_enabled, hmem]
    · have hc : e.contains r.plugin_name = false := by
        rcases Bool.eq_false_or_eq_true (e.contains r.plugin_name) with h | h
        · exact absurd (by simpa [List.contains, List.elem_iff] using h) hmem
        · exact h
      simp [explicit_severity, hl, hc, AllowWarnDeny.is_enabled, hmem]
  | some pc =>
    obtain ⟨policy, config⟩ := pc
    cases policy <;> simp [explicit_severity, hl, AllowWarnDeny.is_enabled]

theorem rule_decision_eq_of_isSome {e : List String}
    {roles : List (String × String × AllowWarnDeny × Option Value)} {r : RuleEnum}
    (h : (rule_decision e roles r).isSome = true) :
    rule_decision e roles r
      = some (r.read_json (explicit_config roles (r.plugin_name, r.name))) := by
  rw [rule_decision_eq] at h ⊢
  by_cases hc : ((e.contains r.plugin_name
        && !(roles_lookup roles (r.plugin_name, r.name)).isSome)
      || (explicit_severity roles (r.plugin_name, r.name)).is_enabled) = true
  · rw [if_pos hc]
  · rw [if_neg hc] at h
    simp at h

/-- C1: a catalog rule is included in the resolved rule set if and only if its
plugin category is in the extends set with no explicit entry for its
identifier in the override map, or the severity associated with it (the
explicit entry's severity if present, the Off/Allow default otherwise) is
enabled, that is Warn or Error/Deny. -/
theorem c1_inclusion_predicate (extends_hm : List String)
    (roles_hm : List (String × String × AllowWarnDeny × Option Value))
    (rule : RuleEnum) (RULES : List RuleEnum) (hmem : rule ∈ RULES) :
    (∃ cfg, rule.read_json cfg ∈ resolve RULES extends_hm roles_hm) ↔
      ((rule.plugin_name ∈ extends_hm
          ∧ roles_lookup roles_hm (rule.plugin_name, rule.name) = none)
        ∨ explicit_severity roles_hm (rule.plugin_name, rule.name) = .Warn
        ∨ explicit_severity roles_hm (rule.plugin_name, rule.name) = .Deny) := by
  constructor
  · rintro ⟨cfg, hcfg⟩
    obtain ⟨a, haR, hda⟩ := List.mem_filterMap.mp hcfg
    have hsome : (rule_decision extends_hm roles_hm a).isSome = true := by
      rw [hda]; rfl
    have hids := rule_decision_some_id hda
    have hpa : a.plugin_name = rule.plugin_name := by
      have : (rule.read_json cfg).plugin_name = rule.plugin_name := rfl
      rw [← hids.1, this]
    have hna : a.name = rule.name := by
      have : (rule.read_json cfg).name = rule.name := rfl
      rw [← hids.2, this]
    have := (rule_decision_isSome_iff extends_hm roles_hm a).mp hsome
    rw [hpa, hna] at this
    exact this
  · intro hpred
    have hsome : (rule_decision extends_hm roles_hm rule).isSome = true :=
      (rule_decision_isSome_iff extends_hm roles_hm rule).mpr hpred
    refine ⟨explicit_config roles_hm (rule.plugin_name, rule.name), ?_⟩
    exact List.mem_filterMap.mpr ⟨rule, hmem, rule_decision_eq_of_isSome hsome⟩

/-- Witness for C1 at a one-rule catalog enabled through `extends`. -/
theorem c1_inclusion_predicate_witness :
    (⟨"eslint", "no-console", none⟩ : RuleEnum) ∈ ([⟨"eslint", "no-console", none⟩] : List RuleEnum)
    ∧ ((∃ cfg, RuleEnum.read_json ⟨"eslint", "no-console", none⟩ cfg
          ∈ resolve [⟨"eslint", "no-console", none⟩] ["eslint"] []) ↔
        ((("eslint" : String) ∈ (["eslint"] : List String)
            ∧ roles_lookup [] ("eslint", "no-console") = none)
          ∨ explicit_severity [] ("eslint", "no-console") = .Warn
          ∨ explicit_severity [] ("eslint", "no-console") = .Deny)) :=
  ⟨by decide,
   c1_inclusion_predicate ["eslint"] [] ⟨"eslint", "no-console", none⟩
     [⟨"eslint", "no-console", none⟩] (by decide)⟩

/-! ### Inversion of `ESLintConfig.new` and catalog-identifier closure -/

theorem new_ok_rules {RULES : List RuleEnum} {file : Value} {cfg : ESLintConfig}
    (h : ESLintConfig.new RULES file = .ok cfg) :
    ∃ eopt roles, parse_extends file = .ok eopt ∧ parse_rules file = .ok roles
      ∧ cfg.rules = resolve RULES (eopt.getD []) roles := by
  unfold ESLintConfig.new at h
  cases he : parse_extends file with
  | error e =>
    rw [he] at h
    cases h
  | ok eopt =>
    rw [he] at h
    cases hr : parse_rules file with
    | error e =>
      rw [hr] at h
      cases h
    | ok roles =>
      rw [hr] at h
      cases h
      refine ⟨eopt, roles, rfl, rfl, ?_⟩
      cases eopt <;> rfl

theorem resolve_ids_sublist (e : List String)
    (roles : List (String × String × AllowWarnDeny × Option Value)) :
    ∀ RULES : List RuleEnum,
      ((resolve RULES e roles).map rule_id).Sublist (RULES.map rule_id)
  | [] => List.Sublist.refl _
  | r :: RULES => by
    unfold resolve
    cases hd : rule_decision e roles r with
    | none =>
      rw [List.filterMap_cons_none hd, List.map_cons]
      exact (resolve_ids_sublist e roles RULES).cons _
    | some x =>
      rw [List.filterMap_cons_some hd, List.map_cons, List.map_cons]
      have hid : rule_id x = rule_id r := by
        obtain ⟨h1, h2⟩ := rule_decision_some_id hd
        unfold rule_id
        rw [h1, h2]
      rw [hid]
      exact (resolve_ids_sublist e roles RULES).cons₂ _

/-- C3: whenever resolution succeeds on a catalog with pairwise-distinct rule
identifiers, every resolved rule carries the identifier of some catalog
descriptor (no identifier is invented), and no identifier appears twice in the
resolved set. -/
theorem c3_catalog_closure_and_no_duplicates (RULES : List RuleEnum) (file : Value)
    (cfg : ESLintConfig) (hok : ESLintConfig.new RULES file = .ok cfg)
    (hnodup : (RULES.map rule_id).Nodup) :
    (∀ x ∈ cfg.into_rules, ∃ r ∈ RULES, rule_id x = rule_id r)
    ∧ (cfg.into_rules.map rule_id).Nodup := by
  obtain ⟨eopt, roles, _, _, hr⟩ := new_ok_rules hok
  have hperm : cfg.into_rules.Perm cfg.rules :=
    List.perm_insertionSort ESLintConfig.rule_le cfg.rules
  constructor
  · intro x hx
    have hx' : x ∈ cfg.rules := hperm.mem_iff.mp hx
    rw [hr] at hx'
    obtain ⟨r, hrR, hd⟩ := List.mem_filterMap.mp hx'
    obtain ⟨h1, h2⟩ := rule_decision_some_id hd
    refine ⟨r, hrR, ?_⟩
    unfold rule_id
    rw [h1, h2]
  · have h1 : (cfg.rules.map rule_id).Nodup := by
      rw [hr]
      exact (resolve_ids_sublist _ _ RULES).nodup hnodup
    exact ((hperm.map rule_id).nodup_iff).mpr h1

/-- Witness for C3 at the worked example of the specification. -/
theorem c3_catalog_closure_and_no_duplicates_witness :
    (∀ x ∈ (ESLintConfig.mk
        [⟨"eslint", "no-console", none⟩, ⟨"eslint", "no-unused-vars", none⟩]).into_rules,
      ∃ r ∈ ([⟨"eslint", "no-console", none⟩, ⟨"eslint", "no-unused-vars", none⟩,
          ⟨"react", "jsx-key", none⟩] : List RuleEnum), rule_id x = rule_id r)
    ∧ (((ESLintConfig.mk
        [⟨"eslint", "no-console", none⟩, ⟨"eslint", "no-unused-vars", none⟩]).into_rules.map
          rule_id).Nodup) :=
  c3_catalog_closure_and_no_duplicates
    [⟨"eslint", "no-console", none⟩, ⟨"eslint", "no-unused-vars", none⟩,
      ⟨"react", "jsx-key", none⟩]
    (.obj [("extends", .arr [.str "eslint:recommended"]),
           ("rules", .obj [("no-console", .str "error"), ("react/jsx-key", .str "off")])])
    (ESLintConfig.mk [⟨"eslint", "no-console", none⟩, ⟨"eslint", "no-unused-vars", none⟩])
    (by decide) (by decide)

/-! ### Successful parses of the `rules` object, elementwise -/

theorem except_ok_bind {ε α β : Type} (a : α) (f : α → Except ε β) :
    (Except.ok a >>= f) = f a := rfl

theorem except_error_bind {ε α β : Type} (e : ε) (f : α → Except ε β) :
    (Except.error e >>= f : Except ε β) = Except.error e := rfl

theorem mapM_ok_parsed :
    ∀ (l : List (String × Value)) (r : List (String × String × AllowWarnDeny × Option Value)),
      l.mapM parse_rules_entry = .ok r →
      r = l.map parsed_entry ∧ ∀ p ∈ l, ∃ y, parse_rules_entry p = .ok y
  | [], r, h => by
    rw [List.mapM_nil] at h
    cases h
    exact ⟨rfl, fun p hp => absurd hp (List.not_mem_nil p)⟩
  | p :: l, r, h => by
    rw [List.mapM_cons] at h
    cases hp : parse_rules_entry p with
    | error e =>
      rw [hp, except_error_bind] at h
      cases h
    | ok y =>
      rw [hp, except_ok_bind] at h
      cases hl : l.mapM parse_rules_entry with
      | error e =>
        rw [hl, except_error_bind] at h
        cases h
      | ok ys =>
        rw [hl, except_ok_bind] at h
        cases h
        obtain ⟨ih1, ih2⟩ := mapM_ok_parsed l ys hl
        refine ⟨?_, ?_⟩
        · rw [List.map_cons, ← ih1]
          have : parsed_entry p = y := by
            unfold parsed_entry
            rw [hp]
          rw [this]
        · intro q hq
          rcases List.mem_cons.mp hq with hq | hq
          · exact ⟨y, hq ▸ hp⟩
          · exact ih2 q hq

theorem parse_rules_entry_ok_id {p : String × Value}
    {y : String × String × AllowWarnDeny × Option Value}
    (h : parse_rules_entry p = .ok y) : roles_id y = parse_rule_name p.1 := by
  simp only [parse_rules_entry] at h
  cases hv : resolve_rule_value p.2 with
  | error e =>
    rw [hv] at h
    cases h
  | ok rc =>
    obtain ⟨sev, cfg⟩ := rc
    rw [hv] at h
    cases h
    rfl

/-! ### `roles_lookup` is invariant under permutation when identifiers are unique -/

theorem find?_eq_of_perm (k : String × String)
    {l1 l2 : List (String × String × AllowWarnDeny × Option Value)}
    (hperm : l1.Perm l2) (hnodup : (l1.map roles_id).Nodup) :
    l1.find? (fun r => r.1 == k.1 && r.2.1 == k.2)
      = l2.find? (fun r => r.1 == k.1 && r.2.1 == k.2) := by
  have hid_of : ∀ r : String × String × AllowWarnDeny × Option Value,
      (r.1 == k.1 && r.2.1 == k.2) = true → roles_id r = k := by
    intro r hr
    obtain ⟨h1, h2⟩ := Bool.and_eq_true_iff.mp hr
    unfold roles_id
    rw [eq_of_beq h1, eq_of_beq h2]
  cases h1 : l1.find? (fun r => r.1 == k.1 && r.2.1 == k.2) with
  | none =>
    have hall := List.find?_eq_none.mp h1
    symm
    rw [List.find?_eq_none]
    intro a ha
    exact hall a (hperm.mem_iff.mpr ha)
  | some x =>
    have hx1 : x ∈ l1 := List.mem_of_find?_eq_some h1
    have hpx := List.find?_some h1
    cases h2 : l2.find? (fun r => r.1 == k.1 && r.2.1 == k.2) with
    | none =>
      exact absurd hpx (List.find?_eq_none.mp h2 x (hperm.mem_iff.mp hx1))
    | some y =>
      have hy2 : y ∈ l2 := List.mem_of_find?_eq_some h2
      have hpy := List.find?_some h2
      have hy1 : y ∈ l1 := hperm.mem_iff.mpr hy2
      by_cases hxy : x = y
      · rw [hxy]
      · exfalso
        have hnd : (l1.map roles_id).Pairwise (· ≠ ·) := hnodup
        have hpair : l1.Pairwise (fun a b => roles_id a ≠ roles_id b) :=
          List.pairwise_map.mp hnd
        have hsymm : Symmetric (fun a b :
            String × String × AllowWarnDeny × Option Value =>
            roles_id a ≠ roles_id b) :=
          fun _ _ h hh => h hh.symm
        have hne := hpair.forall hsymm hx1 hy1 hxy
        exact hne ((hid_of x hpx).trans (hid_of y hpy).symm)

theorem roles_lookup_perm
    {l1 l2 : List (String × String × AllowWarnDeny × Option Value)}
    (hperm : l1.Perm l2) (hnodup : (l1.map roles_id).Nodup)
    (k : String × String) : roles_lookup l1 k = roles_lookup l2 k := by
  unfold roles_lookup
  have hrevperm : l1.reverse.Perm l2.reverse :=
    (List.reverse_perm l1).trans (hperm.trans (List.reverse_perm l2).symm)
  have hrevnodup : (l1.reverse.map roles_id).Nodup := by
    rw [List.map_reverse]
    exact ((List.reverse_perm _).nodup_iff).mpr hnodup
  rw [find?_eq_of_perm k hrevperm hrevnodup]

/-! ### Sortedness of `into_rules` -/

theorem into_rules_sorted (cfg : ESLintConfig) :
    cfg.into_rules.Sorted ESLintConfig.rule_le :=
  List.sorted_insertionSort ESLintConfig.rule_le cfg.rules

theorem sorted_rule_lt {l : List RuleEnum} (hs : l.Sorted ESLintConfig.rule_le)
    (hn : (l.map RuleEnum.name).Nodup) : l.Sorted ESLintConfig.rule_lt := by
  have hnd : (l.map RuleEnum.name).Pairwise (· ≠ ·) := hn
  have hp : l.Pairwise (fun a b => a.name ≠ b.name) := List.pairwise_map.mp hnd
  exact (List.Pairwise.and hs hp).imp (fun h => ⟨h.1, h.2⟩)

theorem sorted_nodup_perm_eq {l1 l2 : List RuleEnum} (hperm : l1.Perm l2)
    (hs1 : l1.Sorted ESLintConfig.rule_le) (hs2 : l2.Sorted ESLintConfig.rule_le)
    (hn : (l1.map RuleEnum.name).Nodup) : l1 = l2 := by
  have hn2 : (l2.map RuleEnum.name).Nodup := ((hperm.map _).nodup_iff).mp hn
  exact List.eq_of_perm_of_sorted hperm (sorted_rule_lt hs1 hn) (sorted_rule_lt hs2 hn2)

theorem eslint_rules_ok {RULES : List RuleEnum} {file : Value} {out : List RuleEnum}
    (h : eslint_rules RULES file = .ok out) :
    ∃ cfg, ESLintConfig.new RULES file = .ok cfg ∧ out = cfg.into_rules := by
  unfold eslint_rules at h
  cases hn : ESLintConfig.new RULES file with
  | error e =>
    rw [hn] at h
    cases h
  | ok cfg =>
    rw [hn] at h
    cases h
    exact ⟨cfg, rfl, rfl⟩

theorem parse_extends_congr {doc1 doc2 : Value}
    (h : doc1.getKey "extends" = doc2.getKey "extends") :
    parse_extends doc1 = parse_extends doc2 := by
  unfold parse_extends
  rw [h]

theorem resolve_congr_roles (RULES : List RuleEnum) (e : List String)
    {roles1 roles2 : List (String × String × AllowWarnDeny × Option Value)}
    (h : ∀ k, roles_lookup roles1 k = roles_lookup roles2 k) :
    resolve RULES e roles1 = resolve RULES e roles2 := by
  unfold resolve
  have hd : ∀ r : RuleEnum, rule_decision e roles1 r = rule_decision e roles2 r := by
    intro r
    rw [rule_decision_eq, rule_decision_eq]
    unfold explicit_severity explicit_config
    rw [h (r.plugin_name, r.name)]
  rw [show rule_decision e roles1 = rule_decision e roles2 from funext hd]

/-- C2 counterexample: two catalogs holding the same two rules (`eslint/dup`
and `typescript/dup`, both explicitly enabled) in opposite iteration orders
produce differently ordered outputs — the rules share the name `dup`, so
sorting by name does not determine their relative order, and the output
depends on catalog iteration order. -/
theorem c2_counterexample :
    (([⟨"eslint", "dup", none⟩, ⟨"typescript", "dup", none⟩] : List RuleEnum).Perm
        [⟨"typescript", "dup", none⟩, ⟨"eslint", "dup", none⟩])
    ∧ eslint_rules [⟨"eslint", "dup", none⟩, ⟨"typescript", "dup", none⟩]
        (.obj [("rules", .obj [("dup", .str "error"), ("typescript/dup", .str "error")])])
      ≠ eslint_rules [⟨"typescript", "dup", none⟩, ⟨"eslint", "dup", none⟩]
        (.obj [("rules", .obj [("dup", .str "error"), ("typescript/dup", .str "error")])]) :=
  ⟨List.Perm.swap (⟨"typescript", "dup", none⟩ : RuleEnum)
      (⟨"eslint", "dup", none⟩ : RuleEnum) [],
   by decide⟩

/-- C2 (amended): the final rule sequence is always sorted by rule name; the
output is independent of the catalog's iteration order whenever the resolved
rules bear pairwise-distinct names; and it is independent of the key order of
the `rules` object whenever the parsed rule identifiers are pairwise
distinct. -/
theorem c2_sorted_and_order_independent :
    (∀ (RULES : List RuleEnum) (file : Value) (out : List RuleEnum),
      eslint_rules RULES file = .ok out → out.Sorted ESLintConfig.rule_le)
    ∧ (∀ (RULES1 RULES2 : List RuleEnum) (file : Value) (out1 out2 : List RuleEnum),
      RULES1.Perm RULES2 →
      eslint_rules RULES1 file = .ok out1 → eslint_rules RULES2 file = .ok out2 →
      (out1.map RuleEnum.name).Nodup → out1 = out2)
    ∧ (∀ (RULES : List RuleEnum) (doc1 doc2 : Value)
        (entries1 entries2 : List (String × Value)) (out1 out2 : List RuleEnum),
      doc1.getKey "extends" = doc2.getKey "extends" →
      doc1.getKey "rules" = some (.obj entries1) →
      doc2.getKey "rules" = some (.obj entries2) →
      entries1.Perm entries2 →
      (entries1.map (fun p => parse_rule_name p.1)).Nodup →
      eslint_rules RULES doc1 = .ok out1 → eslint_rules RULES doc2 = .ok out2 →
      out1 = out2) := by
  have hsorted : ∀ (RULES : List RuleEnum) (file : Value) (out : List RuleEnum),
      eslint_rules RULES file = .ok out → out.Sorted ESLintConfig.rule_le := by
    intro RULES file out h
    obtain ⟨cfg, _, hout⟩ := eslint_rules_ok h
    rw [hout]
    exact into_rules_sorted cfg
  refine ⟨hsorted, ?_, ?_⟩
  · intro RULES1 RULES2 file out1 out2 hcat h1 h2 hnod
    obtain ⟨cfg1, hn1, ho1⟩ := eslint_rules_ok h1
    obtain ⟨cfg2, hn2, ho2⟩ := eslint_rules_ok h2
    obtain ⟨e1, roles1, he1, hr1, hrules1⟩ := new_ok_rules hn1
    obtain ⟨e2, roles2, he2, hr2, hrules2⟩ := new_ok_rules hn2
    have heq : e1 = e2 := Except.ok.inj (he1.symm.trans he2)
    have hreq : roles1 = roles2 := Except.ok.inj (hr1.symm.trans hr2)
    have hrp : cfg1.rules.Perm cfg2.rules := by
      rw [hrules1, hrules2, heq, hreq]
      exact hcat.filterMap _
    have hop : out1.Perm out2 := by
      rw [ho1, ho2]
      exact ((List.perm_insertionSort _ _).trans hrp).trans
        (List.perm_insertionSort _ _).symm
    exact sorted_nodup_perm_eq hop (hsorted RULES1 file out1 h1)
      (hsorted RULES2 file out2 h2) hnod
  · intro RULES doc1 doc2 entries1 entries2 out1 out2 hext hk1 hk2 hperm hnid h1 h2
    obtain ⟨cfg1, hn1, ho1⟩ := eslint_rules_ok h1
    obtain ⟨cfg2, hn2, ho2⟩ := eslint_rules_ok h2
    obtain ⟨e1, roles1, he1, hr1, hrules1⟩ := new_ok_rules hn1
    obtain ⟨e2, roles2, he2, hr2, hrules2⟩ := new_ok_rules hn2
    have heq : e1 = e2 := by
      have := (parse_extends_congr hext) ▸ he1
      exact Except.ok.inj (this.symm.trans he2)
    have hm1 : entries1.mapM parse_rules_entry = .ok roles1 := by
      unfold parse_rules at hr1
      rw [hk1] at hr1
      exact hr1
    have hm2 : entries2.mapM parse_rules_entry = .ok roles2 := by
      unfold parse_rules at hr2
      rw [hk2] at hr2
      exact hr2
    obtain ⟨hmap1, hall1⟩ := mapM_ok_parsed entries1 roles1 hm1
    obtain ⟨hmap2, _⟩ := mapM_ok_parsed entries2 roles2 hm2
    have hrolesperm : roles1.Perm roles2 := by
      rw [hmap1, hmap2]
      exact hperm.map parsed_entry
    have hids : roles1.map roles_id = entries1.map (fun p => parse_rule_name p.1) := by
      rw [hmap1, List.map_map]
      refine List.map_congr_left ?_
      intro p hp
      obtain ⟨y, hy⟩ := hall1 p hp
      have : parsed_entry p = y := by
        unfold parsed_entry
        rw [hy]
      show roles_id (parsed_entry p) = parse_rule_name p.1
      rw [this]
      exact parse_rules_entry_ok_id hy
    have hnodroles : (roles1.map roles_id).Nodup := by
      rw [hids]
      exact hnid
    have hlookup : ∀ k, roles_lookup roles1 k = roles_lookup roles2 k :=
      roles_lookup_perm hrolesperm hnodroles
    have hcfg : cfg1.rules = cfg2.rules := by
      rw [hrules1, hrules2, heq]
      exact resolve_congr_roles RULES (e2.getD []) hlookup
    rw [ho1, ho2]
    unfold ESLintConfig.into_rules
    rw [hcfg]

/-- Witness for C2 (amended) at the worked example of the specification. -/
theorem c2_sorted_and_order_independent_witness :
    ([⟨"eslint", "no-console", none⟩, ⟨"eslint", "no-unused-vars", none⟩] :
        List RuleEnum).Sorted ESLintConfig.rule_le :=
  c2_sorted_and_order_independent.1
    [⟨"eslint", "no-console", none⟩, ⟨"eslint", "no-unused-vars", none⟩,
      ⟨"react", "jsx-key", none⟩]
    (.obj [("extends", .arr [.str "eslint:recommended"]),
           ("rules", .obj [("no-console", .str "error"), ("react/jsx-key", .str "off")])])
    [⟨"eslint", "no-console", none⟩, ⟨"eslint", "no-unused-vars", none⟩]
    (by decide)

end OxcConfig
